import Mathlib

/-!
Shallow embedding of the report-converter command-line orchestrator
(`codechecker_report_converter/cli.py`) and verification of its
specification.

Python strings are modelled as `List Char`; Python dictionaries
(insertion-ordered, assignment overwrites the value of an existing key)
as association lists with an upsert operation.  The filesystem footprint
relevant to the orchestrator is the state of the output directory alone,
modelled as `Option (List String)`: `none` when the directory is absent,
`some contents` when it exists and holds the artifact files `contents`.
-/

set_option autoImplicit false

namespace ReportConverter

/-- Python string, modelled as its character list. -/
abbrev Str := List Char

/-- Python dict with `Str` keys and values: insertion-ordered association
list; `dinsert` below mirrors `d[k] = v` assignment semantics. -/
abbrev Dict := List (Str × Str)

/-- The keys of a dict, in insertion order. -/
def dkeys (d : Dict) : List Str := d.map (·.1)

/-- Mirrors Python dict assignment `d[k] = v`: if the key is present its
value is replaced in place, otherwise the pair is appended. -/
def dinsert (d : Dict) (k v : Str) : Dict :=
  if d.any (fun p => p.1 = k) then
    d.map (fun p => if p.1 = k then (k, v) else p)
  else
    d ++ [(k, v)]

/-- Embeds `supported_metadata_keys = ["analyzer_command", "analyzer_version"]`. -/
def supported_metadata_keys : List Str :=
  ["analyzer_command".toList, "analyzer_version".toList]

/-- Embeds Python `m.split("=", 1)` followed by the two-name tuple
unpacking `key, value = ...`: splits at the first `'='`; when the string
contains no `'='`, the unpacking raises `ValueError`, modelled as `none`. -/
def splitKV : Str → Option (Str × Str)
  | [] => none
  | c :: rest =>
    if c = '=' then some ([], rest)
    else
      match splitKV rest with
      | some (k, v) => some (c :: k, v)
      | none => none

/-- The loop body accumulation of `process_metadata`: walks the metadata
entries in order, splitting each at the first `'='` and routing the pair
into the valid or the invalid dict by the key allow-list.  Returns `none`
as soon as an entry without `'='` is met (the uncaught `ValueError`). -/
def processMetadataAux : List Str → Dict → Dict → Option (Dict × Dict)
  | [], valid, invalid => some (valid, invalid)
  | m :: rest, valid, invalid =>
    match splitKV m with
    | none => none
    | some (k, v) =>
      if k ∈ supported_metadata_keys then
        processMetadataAux rest (dinsert valid k v) invalid
      else
        processMetadataAux rest valid (dinsert invalid k v)

/-- Embeds `process_metadata`: returns the pair of valid and invalid
metadata dicts, or `none` when the Python code would raise. -/
def process_metadata (metadata : List Str) : Option (Dict × Dict) :=
  if metadata = [] then some ([], [])
  else processMetadataAux metadata [] []

/-- Capability record of one analyzer-result converter: its display name
(`NAME`) and reference URL (`URL`). -/
structure Converter where
  name : String
  url : String
deriving DecidableEq

/-- Modelled from the spec: the registry `supported_converters` maps each
registered tool identifier (`TOOL_NAME`) to a converter implementation
carrying a display name and reference URL (§6, §9).  The per-tool
`TOOL_NAME`/`NAME`/`URL` constants live in the thirteen imported
`analyzer_result` modules, which are outside the embedded source; the
identifiers and strings below stand in for them, one entry per import,
in the dict's insertion order. -/
def supported_converters : List (String × Converter) :=
  [("clang-tidy", ⟨"Clang Tidy", "https://clang.llvm.org/extra/clang-tidy"⟩),
   ("cppcheck", ⟨"Cppcheck", "http://cppcheck.sourceforge.net"⟩),
   ("fbinfer", ⟨"Facebook Infer", "https://fbinfer.com"⟩),
   ("golint", ⟨"Golint", "https://github.com/golang/lint"⟩),
   ("asan", ⟨"AddressSanitizer", "https://clang.llvm.org/docs/AddressSanitizer.html"⟩),
   ("eslint", ⟨"ESLint", "https://eslint.org"⟩),
   ("msan", ⟨"MemorySanitizer", "https://clang.llvm.org/docs/MemorySanitizer.html"⟩),
   ("pylint", ⟨"Pylint", "https://www.pylint.org"⟩),
   ("pyflakes", ⟨"Pyflakes", "https://github.com/PyCQA/pyflakes"⟩),
   ("tsan", ⟨"ThreadSanitizer", "https://clang.llvm.org/docs/ThreadSanitizer.html"⟩),
   ("tslint", ⟨"TSLint", "https://palantir.github.io/tslint"⟩),
   ("ubsan", ⟨"UndefinedBehaviorSanitizer",
     "https://clang.llvm.org/docs/UndefinedBehaviorSanitizer.html"⟩),
   ("spotbugs", ⟨"SpotBugs", "https://spotbugs.github.io"⟩)]

/-- The registered tool identifiers, in registry insertion order. -/
def toolKinds : List String := supported_converters.map (·.1)

/-- Registry lookup `supported_converters[tool_name]`; total because it is
only applied to registered identifiers. -/
def lookupConverter (k : String) : Converter :=
  ((supported_converters.find? (fun p => p.1 = k)).map (·.2)).getD ⟨"", ""⟩

/-- Code-point lexicographic order on character lists: the comparison
Python `sorted` applies to strings. -/
def lexLe : List Char → List Char → Bool
  | [], _ => true
  | _ :: _, [] => false
  | a :: as, b :: bs =>
    if a < b then true else if b < a then false else lexLe as bs

/-- Insertion step of the sort used to model Python `sorted`. -/
def insertSorted (s : String) : List String → List String
  | [] => [s]
  | t :: ts =>
    if lexLe s.toList t.toList then s :: t :: ts else t :: insertSorted s ts

/-- Models Python `sorted` on a list of strings (insertion sort). -/
def sortStrings : List String → List String
  | [] => []
  | s :: ss => insertSorted s (sortStrings ss)

/-- Embeds the help epilog of `main`: one line per supported converter,
`"  {tool} - {NAME}, {URL}"`, over `sorted(supported_converters)`. -/
def epilogLines : List String :=
  (sortStrings toolKinds).map
    (fun tool =>
      "  " ++ tool ++ " - " ++ (lookupConverter tool).name ++ ", " ++
        (lookupConverter tool).url)

/-- Modelled from the spec: the serializer writes one artifact per source
file of the current run into the output directory with deterministic
naming, so a re-run overwrites a same-named artifact rather than
duplicating it, and leaves artifacts it does not touch intact (§4.2).
The parser/serializer pair (`parser.transform`) lives in the per-tool
modules outside the embedded source; here it is abstracted by the list
`runArtifacts` of artifact names the current run produces. -/
def transform (runArtifacts : List String) (contents : List String) : List String :=
  runArtifacts ++ contents.filter (fun f => f ∉ runArtifacts)

/-- Embeds `output_to_plist(analyzer_result, parser_type, output_dir,
clean, metadata)` acting on the output-directory state: if `clean` is set
and the directory exists it is removed (`shutil.rmtree`); if the
directory does not exist it is created (`os.makedirs`); then the selected
parser's `transform` writes the run's artifacts into it.  Returns the new
directory state. -/
def output_to_plist (clean : Bool) (dir : Option (List String))
    (runArtifacts : List String) : Option (List String) :=
  let dir1 := if clean ∧ dir.isSome then none else dir
  let dir2 := match dir1 with
    | none => some []
    | some contents => some contents
  match dir2 with
  | some contents => some (transform runArtifacts contents)
  | none => none

/-- The distinct failure reports `main` can produce.  `unsupportedTool`
models the argparse rejection of a `--type` outside `choices=
supported_converters` (which prints the valid choices and exits with
status 2); `invalidMetadata` models the `LOG.error` naming the rejected
keys and the allowed keys followed by `sys.exit(1)`; `metadataException`
models the uncaught `ValueError` from `process_metadata` (Python exits
with status 1 on an unhandled exception). -/
inductive ConvertError where
  | unsupportedTool (validKinds : List String)
  | invalidMetadata (rejectedKeys : List Str) (allowedKeys : List Str)
  | metadataException
deriving DecidableEq

/-- Observable outcome of one `main` invocation: the process exit status,
the resulting output-directory state, whether the selected parser was
invoked, which error (if any) was reported, and which parser-level
warnings were surfaced (via logging; never consulted for the status). -/
structure MainOutcome where
  exitCode : Nat
  dir : Option (List String)
  parserInvoked : Bool
  error : Option ConvertError
  warningsLogged : List String
deriving DecidableEq

/-- Embeds `main()` as a function of its inputs and the pre-state of the
output directory.  `runArtifacts` and `parserWarnings` abstract what the
selected parser/serializer would produce and warn (modelled from the
spec, §4.1: tolerant parsers surface skip-warnings without failing);
everything else follows `cli.py` line by line: argparse validates the
tool kind first, then `process_metadata` partitions the metadata, a
nonempty invalid dict is reported and exits with 1, and only then does
`output_to_plist` touch the filesystem. -/
def main (toolKind : String) (metadata : List Str) (clean : Bool)
    (dir : Option (List String)) (runArtifacts : List String)
    (parserWarnings : List String) : MainOutcome :=
  if toolKind ∉ toolKinds then
    ⟨2, dir, false, some (.unsupportedTool toolKinds), []⟩
  else
    match process_metadata metadata with
    | none => ⟨1, dir, false, some .metadataException, []⟩
    | some (_, invalid) =>
      if invalid ≠ [] then
        ⟨1, dir, false,
          some (.invalidMetadata (dkeys invalid) supported_metadata_keys), []⟩
      else
        ⟨0, output_to_plist clean dir runArtifacts, true, none, parserWarnings⟩

theorem mem_dkeys_dinsert {kq : Str} (d : Dict) (k v : Str) :
    kq ∈ dkeys (dinsert d k v) ↔ kq ∈ dkeys d ∨ kq = k := by
  unfold dinsert dkeys
  split
  · next h =>
    have hmap : (fun p : Str × Str => (if p.1 = k then (k, v) else p).1) =
        fun p : Str × Str => p.1 := by
      funext p
      split
      · next hp => exact hp.symm
      · rfl
    rw [List.map_map]
    show kq ∈ d.map _ ↔ _
    rw [show ((fun p : Str × Str => p.1) ∘ fun p : Str × Str =>
        if p.1 = k then (k, v) else p) = fun p : Str × Str => p.1 from hmap]
    constructor
    · exact Or.inl
    · rintro (hk | rfl)
      · exact hk
      · obtain ⟨p, hp, hpk⟩ : ∃ p ∈ d, p.1 = kq := by simpa using h
        exact List.mem_map.mpr ⟨p, hp, hpk⟩
  · simp [List.map_append]


theorem processMetadataAux_keys :
    ∀ (l : List Str) (valid invalid v i : Dict),
      processMetadataAux l valid invalid = some (v, i) →
      (∀ k, k ∈ dkeys v ↔ k ∈ dkeys valid ∨
         ∃ m ∈ l, ∃ val, splitKV m = some (k, val) ∧ k ∈ supported_metadata_keys) ∧
      (∀ k, k ∈ dkeys i ↔ k ∈ dkeys invalid ∨
         ∃ m ∈ l, ∃ val, splitKV m = some (k, val) ∧ k ∉ supported_metadata_keys)
  | [], valid, invalid, v, i, h => by
    simp only [processMetadataAux, Option.some.injEq, Prod.mk.injEq] at h
    obtain ⟨rfl, rfl⟩ := h
    constructor <;> intro k <;> simp
  | m :: rest, valid, invalid, v, i, h => by
    cases hsplit : splitKV m with
    | none => simp [processMetadataAux, hsplit] at h
    | some kv =>
      obtain ⟨k0, v0⟩ := kv
      by_cases hmem : k0 ∈ supported_metadata_keys
      · simp only [processMetadataAux, hsplit, hmem, if_pos] at h
        obtain ⟨hv, hi⟩ := processMetadataAux_keys rest _ _ _ _ h
        refine ⟨fun k => ?_, fun k => ?_⟩
        · rw [hv k, mem_dkeys_dinsert]
          constructor
          · rintro ((hkv | rfl) | ⟨mq, hmq, val, hsp, hal⟩)
            · exact Or.inl hkv
            · exact Or.inr ⟨m, List.mem_cons_self _ _, v0, hsplit, hmem⟩
            · exact Or.inr ⟨mq, List.mem_cons_of_mem _ hmq, val, hsp, hal⟩
          · rintro (hkv | ⟨mq, hmq, val, hsp, hal⟩)
            · exact Or.inl (Or.inl hkv)
            · rcases List.mem_cons.mp hmq with rfl | hmq
              · rw [hsplit] at hsp
                injection hsp with hsp
                exact Or.inl (Or.inr (congrArg Prod.fst hsp).symm)
              · exact Or.inr ⟨mq, hmq, val, hsp, hal⟩
        · rw [hi k]
          constructor
          · rintro (hkv | ⟨mq, hmq, val, hsp, hal⟩)
            · exact Or.inl hkv
            · exact Or.inr ⟨mq, List.mem_cons_of_mem _ hmq, val, hsp, hal⟩
          · rintro (hkv | ⟨mq, hmq, val, hsp, hal⟩)
            · exact Or.inl hkv
            · rcases List.mem_cons.mp hmq with rfl | hmq
              · rw [hsplit] at hsp
                injection hsp with hsp
                have hk : k0 = k := congrArg Prod.fst hsp
                exact absurd (hk ▸ hmem) hal
              · exact Or.inr ⟨mq, hmq, val, hsp, hal⟩
      · simp only [processMetadataAux, hsplit, hmem, if_neg, if_false] at h
        obtain ⟨hv, hi⟩ := processMetadataAux_keys rest _ _ _ _ h
        refine ⟨fun k => ?_, fun k => ?_⟩
        · rw [hv k]
          constructor
          · rintro (hkv | ⟨mq, hmq, val, hsp, hal⟩)
            · exact Or.inl hkv
            · exact Or.inr ⟨mq, List.mem_cons_of_mem _ hmq, val, hsp, hal⟩
          · rintro (hkv | ⟨mq, hmq, val, hsp, hal⟩)
            · exact Or.inl hkv
            · rcases List.mem_cons.mp hmq with rfl | hmq
              · rw [hsplit] at hsp
                injection hsp with hsp
                have hk : k0 = k := congrArg Prod.fst hsp
                exact absurd hal (hk ▸ hmem)
              · exact Or.inr ⟨mq, hmq, val, hsp, hal⟩
        · rw [hi k, mem_dkeys_dinsert]
          constructor
          · rintro ((hkv | rfl) | ⟨mq, hmq, val, hsp, hal⟩)
            · exact Or.inl hkv
            · exact Or.inr ⟨m, List.mem_cons_self _ _, v0, hsplit, hmem⟩
            · exact Or.inr ⟨mq, List.mem_cons_of_mem _ hmq, val, hsp, hal⟩
          · rintro (hkv | ⟨mq, hmq, val, hsp, hal⟩)
            · exact Or.inl (Or.inl hkv)
            · rcases List.mem_cons.mp hmq with rfl | hmq
              · rw [hsplit] at hsp
                injection hsp with hsp
                exact Or.inl (Or.inr (congrArg Prod.fst hsp).symm)
              · exact Or.inr ⟨mq, hmq, val, hsp, hal⟩


theorem processMetadataAux_isSome :
    ∀ (l : List Str) (valid invalid : Dict),
      (∀ m ∈ l, (splitKV m).isSome) →
      ∃ v i, processMetadataAux l valid invalid = some (v, i)
  | [], valid, invalid, _ => ⟨valid, invalid, rfl⟩
  | m :: rest, valid, invalid, h => by
    cases hsplit : splitKV m with
    | none =>
      have := h m (List.mem_cons_self _ _)
      rw [hsplit] at this
      exact absurd this (by simp)
    | some kv =>
      obtain ⟨k0, v0⟩ := kv
      have hrest : ∀ mq ∈ rest, (splitKV mq).isSome :=
        fun mq hmq => h mq (List.mem_cons_of_mem _ hmq)
      by_cases hmem : k0 ∈ supported_metadata_keys
      · obtain ⟨v, i, hvi⟩ :=
          processMetadataAux_isSome rest (dinsert valid k0 v0) invalid hrest
        exact ⟨v, i, by simp [processMetadataAux, hsplit, hmem, hvi]⟩
      · obtain ⟨v, i, hvi⟩ :=
          processMetadataAux_isSome rest valid (dinsert invalid k0 v0) hrest
        exact ⟨v, i, by simp [processMetadataAux, hsplit, hmem, hvi]⟩

theorem process_metadata_keys (metadata : List Str) (v i : Dict)
    (h : process_metadata metadata = some (v, i)) :
    (∀ k, k ∈ dkeys v ↔
       ∃ m ∈ metadata, ∃ val, splitKV m = some (k, val) ∧
         k ∈ supported_metadata_keys) ∧
    (∀ k, k ∈ dkeys i ↔
       ∃ m ∈ metadata, ∃ val, splitKV m = some (k, val) ∧
         k ∉ supported_metadata_keys) := by
  unfold process_metadata at h
  split at h
  · next hnil =>
    subst hnil
    simp only [Option.some.injEq, Prod.mk.injEq] at h
    obtain ⟨rfl, rfl⟩ := h
    constructor <;> intro k <;> simp [dkeys]
  · have := processMetadataAux_keys metadata [] [] v i h
    simpa [dkeys] using this

/-- Claim C3: for every list of key=value metadata entries (each entry contains
an `'='`), `process_metadata` returns a pair of dicts classifying every
entry into exactly one of the two, an entry's key lands in the valid dict
iff it belongs to the allow-list, and no entry is silently dropped: every
key in either dict comes from an entry and every entry's key is present
in the dict of its side. -/
theorem process_metadata_partitions (metadata : List Str)
    (hwf : ∀ m ∈ metadata, (splitKV m).isSome) :
    ∃ v i, process_metadata metadata = some (v, i) ∧
      (∀ m ∈ metadata, ∀ k val, splitKV m = some (k, val) →
        (k ∈ supported_metadata_keys → k ∈ dkeys v ∧ k ∉ dkeys i) ∧
        (k ∉ supported_metadata_keys → k ∈ dkeys i ∧ k ∉ dkeys v)) ∧
      (∀ k, k ∈ dkeys v ∨ k ∈ dkeys i →
        ∃ m ∈ metadata, ∃ val, splitKV m = some (k, val)) := by
  by_cases hnil : metadata = []
  · subst hnil
    exact ⟨[], [], rfl, by simp, by simp [dkeys]⟩
  · obtain ⟨v, i, hvi⟩ := processMetadataAux_isSome metadata [] [] hwf
    have hpm : process_metadata metadata = some (v, i) := by
      simpa [process_metadata, hnil] using hvi
    obtain ⟨hv, hi⟩ := process_metadata_keys metadata v i hpm
    refine ⟨v, i, hpm, ?_, ?_⟩
    · intro m hm k val hsp
      constructor
      · intro hal
        refine ⟨(hv k).mpr ⟨m, hm, val, hsp, hal⟩, fun hc => ?_⟩
        obtain ⟨_, _, _, _, hnal⟩ := (hi k).mp hc
        exact hnal hal
      · intro hal
        refine ⟨(hi k).mpr ⟨m, hm, val, hsp, hal⟩, fun hc => ?_⟩
        obtain ⟨_, _, _, _, hval⟩ := (hv k).mp hc
        exact hal hval
    · intro k hk
      rcases hk with hk | hk
      · obtain ⟨m, hm, val, hsp, _⟩ := (hv k).mp hk
        exact ⟨m, hm, val, hsp⟩
      · obtain ⟨m, hm, val, hsp, _⟩ := (hi k).mp hk
        exact ⟨m, hm, val, hsp⟩

/-- Witness for `process_metadata_partitions` at a concrete two-entry
metadata list, one accepted and one rejected key. -/
theorem process_metadata_partitions_witness :
    (∀ m ∈ ["analyzer_version=1.2".toList, "foo=bar".toList],
       (splitKV m).isSome) ∧
    (∃ v i, process_metadata
        ["analyzer_version=1.2".toList, "foo=bar".toList] = some (v, i) ∧
      (∀ m ∈ ["analyzer_version=1.2".toList, "foo=bar".toList],
        ∀ k val, splitKV m = some (k, val) →
        (k ∈ supported_metadata_keys → k ∈ dkeys v ∧ k ∉ dkeys i) ∧
        (k ∉ supported_metadata_keys → k ∈ dkeys i ∧ k ∉ dkeys v)) ∧
      (∀ k, k ∈ dkeys v ∨ k ∈ dkeys i →
        ∃ m ∈ ["analyzer_version=1.2".toList, "foo=bar".toList],
          ∃ val, splitKV m = some (k, val))) :=
  ⟨by decide, process_metadata_partitions _ (by decide)⟩

/-- Claim C1: when some metadata entry's key is outside the allow-list, `main`
exits with a nonzero status, the output directory state is untouched
(neither created, cleaned nor modified) and the parser is never
invoked. -/
theorem invalid_metadata_aborts_without_writes (toolKind : String)
    (metadata : List Str) (clean : Bool) (dir : Option (List String))
    (arts warns : List String)
    (hbad : ∃ m ∈ metadata, ∃ k val, splitKV m = some (k, val) ∧
      k ∉ supported_metadata_keys) :
    (main toolKind metadata clean dir arts warns).exitCode ≠ 0 ∧
    (main toolKind metadata clean dir arts warns).dir = dir ∧
    (main toolKind metadata clean dir arts warns).parserInvoked = false := by
  unfold main
  by_cases htool : toolKind ∈ toolKinds
  · rw [if_neg (by simpa using htool)]
    cases hpm : process_metadata metadata with
    | none => exact ⟨by simp, rfl, rfl⟩
    | some vi =>
      obtain ⟨v, i⟩ := vi
      dsimp only
      obtain ⟨m, hm, k, val, hsp, hnal⟩ := hbad
      have hki : k ∈ dkeys i :=
        ((process_metadata_keys metadata v i hpm).2 k).mpr
          ⟨m, hm, val, hsp, hnal⟩
      have hine : i ≠ [] := by
        intro hc
        rw [hc] at hki
        simp [dkeys] at hki
      rw [if_pos hine]
      exact ⟨by simp, rfl, rfl⟩
  · rw [if_pos (by simpa using htool)]
    exact ⟨by simp, rfl, rfl⟩

/-- Witness for `invalid_metadata_aborts_without_writes`: a registered tool
kind, a pre-existing output directory and one disallowed metadata key. -/
theorem invalid_metadata_aborts_without_writes_witness :
    (∃ m ∈ ["foo=bar".toList], ∃ k val, splitKV m = some (k, val) ∧
      k ∉ supported_metadata_keys) ∧
    (main "clang-tidy" ["foo=bar".toList] true (some ["old.plist"])
        ["new.plist"] []).exitCode ≠ 0 ∧
    (main "clang-tidy" ["foo=bar".toList] true (some ["old.plist"])
        ["new.plist"] []).dir = some ["old.plist"] ∧
    (main "clang-tidy" ["foo=bar".toList] true (some ["old.plist"])
        ["new.plist"] []).parserInvoked = false := by
  have hbad : ∃ m ∈ ["foo=bar".toList], ∃ k val,
      splitKV m = some (k, val) ∧ k ∉ supported_metadata_keys :=
    ⟨"foo=bar".toList, by decide, "foo".toList, "bar".toList,
      by decide, by decide⟩
  exact ⟨hbad,
    invalid_metadata_aborts_without_writes "clang-tidy" ["foo=bar".toList] true
      (some ["old.plist"]) ["new.plist"] [] hbad⟩

/-- Claim C4: for a tool kind outside the registered parser set, `main` fails
(argparse exits with status 2) reporting the valid kinds, and the output
directory is neither removed nor created: its state is unchanged and the
parser is never invoked. -/
theorem unknown_tool_rejected_before_writes (toolKind : String)
    (metadata : List Str) (clean : Bool) (dir : Option (List String))
    (arts warns : List String) (htool : toolKind ∉ toolKinds) :
    (main toolKind metadata clean dir arts warns).exitCode = 2 ∧
    (main toolKind metadata clean dir arts warns).dir = dir ∧
    (main toolKind metadata clean dir arts warns).parserInvoked = false ∧
    (main toolKind metadata clean dir arts warns).error =
      some (.unsupportedTool toolKinds) := by
  unfold main
  rw [if_pos (by simpa using htool)]
  exact ⟨rfl, rfl, rfl, rfl⟩

/-- Witness for `unknown_tool_rejected_before_writes` at the unregistered
tool kind "mypy" against a pre-existing output directory. -/
theorem unknown_tool_rejected_before_writes_witness :
    "mypy" ∉ toolKinds ∧
    ((main "mypy" [] true (some ["old.plist"]) ["new.plist"] []).exitCode = 2 ∧
     (main "mypy" [] true (some ["old.plist"]) ["new.plist"] []).dir =
       some ["old.plist"] ∧
     (main "mypy" [] true (some ["old.plist"]) ["new.plist"] []).parserInvoked
       = false ∧
     (main "mypy" [] true (some ["old.plist"]) ["new.plist"] []).error =
       some (.unsupportedTool toolKinds)) :=
  ⟨by decide,
   unknown_tool_rejected_before_writes "mypy" [] true (some ["old.plist"])
     ["new.plist"] [] (by decide)⟩

/-- Claim C2: with `clean = true` and valid inputs, any pre-existing output
directory is removed before the parser writes, so afterwards only the
artifacts of the current run remain; when the directory was absent
nothing is removed and the directory is created.  In both cases the
resulting directory state holds exactly the current run's artifacts. -/
theorem clean_leaves_only_current_run (toolKind : String)
    (metadata : List Str) (dir : Option (List String))
    (arts warns : List String) (valid : Dict)
    (htool : toolKind ∈ toolKinds)
    (hmeta : process_metadata metadata = some (valid, [])) :
    (main toolKind metadata true dir arts warns).dir = some arts ∧
    (main toolKind metadata true dir arts warns).parserInvoked = true := by
  unfold main
  rw [if_neg (by simpa using htool), hmeta]
  dsimp only
  rw [if_neg (by simp)]
  refine ⟨?_, rfl⟩
  cases dir <;> simp [output_to_plist, transform]

/-- Witness for `clean_leaves_only_current_run`: a registered tool kind,
empty metadata and a pre-existing directory holding an unrelated
artifact. -/
theorem clean_leaves_only_current_run_witness :
    "cppcheck" ∈ toolKinds ∧
    process_metadata [] = some ([], []) ∧
    ((main "cppcheck" [] true (some ["stale.plist"]) ["run.plist"] []).dir =
       some ["run.plist"] ∧
     (main "cppcheck" [] true (some ["stale.plist"]) ["run.plist"]
       []).parserInvoked = true) :=
  ⟨by decide, by decide,
   clean_leaves_only_current_run "cppcheck" [] (some ["stale.plist"])
     ["run.plist"] [] [] (by decide) (by decide)⟩

/-- Claim C5: with `clean = false`, `main` never deletes a pre-existing file of
the output directory: on every path (validation failure, exception or a
successful conversion) the resulting directory still contains every file
it held before, and the directory is created only when absent. -/
theorem no_clean_preserves_existing_files (toolKind : String)
    (metadata : List Str) (old : List String) (arts warns : List String) :
    ∃ contents,
      (main toolKind metadata false (some old) arts warns).dir =
        some contents ∧
      ∀ f ∈ old, f ∈ contents := by
  unfold main
  by_cases htool : toolKind ∈ toolKinds
  · rw [if_neg (by simpa using htool)]
    cases hpm : process_metadata metadata with
    | none => exact ⟨old, rfl, fun f hf => hf⟩
    | some vi =>
      obtain ⟨v, i⟩ := vi
      dsimp only
      by_cases hine : i = []
      · subst hine
        rw [if_neg (by simp)]
        refine ⟨transform arts old, by simp [output_to_plist], ?_⟩
        intro f hf
        by_cases hfa : f ∈ arts <;> simp [transform, hf, hfa]
      · rw [if_pos hine]
        exact ⟨old, rfl, fun f hf => hf⟩
  · rw [if_pos (by simpa using htool)]
    exact ⟨old, rfl, fun f hf => hf⟩

/-- Claim C6, counterexample: a successful run that surfaced a parser-level
warning exits with status 0, exactly like a clean successful run, so the
exit status does not distinguish "succeeded with warnings" from
"succeeded cleanly" — there are no three distinguishable exit values. -/
theorem warning_exit_indistinguishable :
    (main "clang-tidy" [] false none ["r.plist"] []).exitCode = 0 ∧
    (main "clang-tidy" [] false none ["r.plist"]
      ["line 3 skipped"]).exitCode = 0 ∧
    (main "clang-tidy" [] false none ["r.plist"]
      ["line 3 skipped"]).warningsLogged ≠ [] := by decide

/-- Claim C6, amended: the exit status distinguishes success (0) from failure
(nonzero); parser-level warnings never influence the exit status, so a
success with warnings exits exactly like a clean success. -/
theorem exit_code_success_vs_failure (toolKind : String)
    (metadata : List Str) (clean : Bool) (dir : Option (List String))
    (arts w1 w2 : List String) :
    (main toolKind metadata clean dir arts w1).exitCode =
      (main toolKind metadata clean dir arts w2).exitCode ∧
    ((main toolKind metadata clean dir arts w1).exitCode = 0 ↔
      (main toolKind metadata clean dir arts w1).error = none) := by
  unfold main
  by_cases htool : toolKind ∈ toolKinds
  · simp only [if_neg (show ¬toolKind ∉ toolKinds from fun hc => hc htool)]
    cases hpm : process_metadata metadata with
    | none => exact ⟨by simp, by simp⟩
    | some vi =>
      obtain ⟨v, i⟩ := vi
      dsimp only
      by_cases hine : i = []
      · subst hine
        simp only [if_neg (show ¬([] : Dict) ≠ [] from fun hc => hc rfl)]
        exact ⟨by simp, by simp⟩
      · simp only [if_pos hine]
        exact ⟨by simp, by simp⟩
  · simp only [if_pos (show toolKind ∉ toolKinds from htool)]
    exact ⟨by simp, by simp⟩

/-- Claim C7: when `main` rejects metadata it reports the full set of rejected
keys (every entry key outside the allow-list is named) together with the
full allowed key set, which is exactly
`{analyzer_command, analyzer_version}`. -/
theorem metadata_error_names_keys (toolKind : String) (metadata : List Str)
    (clean : Bool) (dir : Option (List String)) (arts warns : List String)
    (v i : Dict) (htool : toolKind ∈ toolKinds)
    (hmeta : process_metadata metadata = some (v, i)) (hne : i ≠ []) :
    (main toolKind metadata clean dir arts warns).error =
      some (.invalidMetadata (dkeys i) supported_metadata_keys) ∧
    (∀ m ∈ metadata, ∀ k val, splitKV m = some (k, val) →
      k ∉ supported_metadata_keys → k ∈ dkeys i) ∧
    supported_metadata_keys =
      ["analyzer_command".toList, "analyzer_version".toList] := by
  refine ⟨?_, ?_, rfl⟩
  · unfold main
    rw [if_neg (by simpa using htool), hmeta]
    dsimp only
    rw [if_pos hne]
  · intro m hm k val hsp hnal
    exact ((process_metadata_keys metadata v i hmeta).2 k).mpr
      ⟨m, hm, val, hsp, hnal⟩

/-- Witness for `metadata_error_names_keys`: two rejected keys are both
named in the reported error, together with the allowed set. -/
theorem metadata_error_names_keys_witness :
    "pylint" ∈ toolKinds ∧
    process_metadata ["foo=1".toList, "bar=2".toList] =
      some ([], [("foo".toList, "1".toList), ("bar".toList, "2".toList)]) ∧
    ([("foo".toList, "1".toList), ("bar".toList, "2".toList)] : Dict) ≠ [] ∧
    ((main "pylint" ["foo=1".toList, "bar=2".toList] false none [] []).error =
      some (.invalidMetadata
        (dkeys [("foo".toList, "1".toList), ("bar".toList, "2".toList)])
        supported_metadata_keys) ∧
     (∀ m ∈ ["foo=1".toList, "bar=2".toList], ∀ k val,
        splitKV m = some (k, val) → k ∉ supported_metadata_keys →
        k ∈ dkeys [("foo".toList, "1".toList), ("bar".toList, "2".toList)]) ∧
     supported_metadata_keys =
       ["analyzer_command".toList, "analyzer_version".toList]) :=
  ⟨by decide, by decide, by decide,
   metadata_error_names_keys "pylint" ["foo=1".toList, "bar=2".toList]
     false none [] [] [] [("foo".toList, "1".toList), ("bar".toList, "2".toList)]
     (by decide) (by decide) (by decide)⟩

/-- Claim C8: the registry maps each registered tool identifier to its
converter (display name and reference URL), and the help epilog holds
exactly one line per registered kind, in sorted identifier order, each
line carrying the identifier, its display name and its URL. -/
theorem registry_help_enumerates_all :
    (∀ p ∈ supported_converters, lookupConverter p.1 = p.2) ∧
    List.Pairwise (fun a b => lexLe a.toList b.toList = true)
      (sortStrings toolKinds) ∧
    (sortStrings toolKinds).Perm toolKinds ∧
    (∀ p ∈ supported_converters,
      ("  " ++ p.1 ++ " - " ++ p.2.name ++ ", " ++ p.2.url) ∈ epilogLines) ∧
    epilogLines.length = supported_converters.length := by decide

/-- Claim C9: a metadata entry with no `'='` makes `process_metadata` raise
(the `ValueError` of the failed tuple unpacking, modelled as `none`)
instead of classifying the entry, and `main` then terminates on the
unhandled-exception path with exit status 1. -/
theorem metadata_without_equals_raises :
    splitKV "noequals".toList = none ∧
    process_metadata ["noequals".toList] = none ∧
    (main "clang-tidy" ["noequals".toList] false none ["r.plist"] []).error =
      some .metadataException ∧
    (main "clang-tidy" ["noequals".toList] false none
      ["r.plist"] []).exitCode = 1 ∧
    (main "clang-tidy" ["noequals".toList] false none
      ["r.plist"] []).parserInvoked = false := by decide

/-- Splitting a string `k ++ "=" ++ v` whose prefix `k` holds no `'='`
yields exactly `(k, v)`: `splitKV` cuts at the first `'='` only. -/
theorem splitKV_append (k v : Str) (h : '=' ∉ k) :
    splitKV (k ++ '=' :: v) = some (k, v) := by
  induction k with
  | nil => simp [splitKV]
  | cons c k ih =>
    have hc : c ≠ '=' := fun hc => h (hc ▸ List.mem_cons_self _ _)
    have hk : '=' ∉ k := fun hk => h (List.mem_cons_of_mem _ hk)
    simp [splitKV, hc, ih hk]

/-- Claim C10: a metadata entry `key=v` whose value part itself contains `'='`
characters is split only at the first `'='`: the key is the text before
the first `'='` and the whole remainder, further `'='` included, is kept
as the value. -/
theorem split_at_first_equals (k v : Str) (hk : '=' ∉ k) (_hv : '=' ∈ v) :
    splitKV (k ++ '=' :: v) = some (k, v) :=
  splitKV_append k v hk

/-- Witness for `split_at_first_equals` on the entry `"a=b=c"`. -/
theorem split_at_first_equals_witness :
    '=' ∉ "a".toList ∧ '=' ∈ "b=c".toList ∧
    splitKV ("a".toList ++ '=' :: "b=c".toList) =
      some ("a".toList, "b=c".toList) :=
  ⟨by decide, by decide,
   split_at_first_equals "a".toList "b=c".toList (by decide) (by decide)⟩

end ReportConverter
